import Mathlib

/-!
# A shallow embedding of the kcats stack-machine interpreter

This file embeds the tokenizer and the stack-machine execution engine of
`src/main.rs` into Lean 4 and proves properties of the embedding.

Conventions of the embedding:
* Rust `i64` values are modelled as `Int`; the `as u32` / `as usize` casts
  are modelled as `% 2^32` / `% 2^64` (two's-complement wrap of the bit
  pattern read back as an unsigned integer).
* A Rust `panic!` (every fatal error) is modelled as `Option.none`.
* A Rust `Vec` used as a stack pushes/pops at its end; we model each value
  stack as a `List String` whose *head* is the top of the stack.
* Standard input is modelled by passing the line that `input` would read as
  an explicit parameter; standard output and the debug channel are not
  modelled (printing has no effect on the machine state).
-/

namespace Kcats

/-- The token type of the interpreter (`enum Token` in the source). -/
inductive Token where
  | Ident : String → Token
  | Int : Int → Token
  | Str : String → Token
  | LParen : Token
  | RParen : Token
  | Bang : Token
deriving DecidableEq, Repr

/-! ## Tokenizer -/

/-- Skip the rest of a `//` line comment: drop characters up to and
including the next newline (or to the end of input). -/
def skipComment : List Char → List Char
  | [] => []
  | c :: rest => if c = '\n' then rest else skipComment rest

/-- Consume a string literal body: characters up to the closing quote
(which is consumed).  `none` models the "unfinished string literal" panic
at end of input. -/
def takeStr : List Char → Option (List Char × List Char)
  | [] => none
  | c :: rest =>
    if c = '"' then some ([], rest)
    else (takeStr rest).map (fun p => (c :: p.1, p.2))

/-- The digit loop of the integer-literal case.  It mirrors
`while let Some(c @ '0'..='9') = src.next()`: each iteration consumes one
character; when a non-digit is consumed the loop stops and that character
is *discarded* (it was already taken from the iterator). -/
def takeDigits : List Char → List Char × List Char
  | [] => ([], [])
  | c :: rest =>
    if c.isDigit then
      let p := takeDigits rest
      (c :: p.1, p.2)
    else ([], rest)

/-- Characters that end an identifier in the catch-all arm of `lex`. -/
def isIdentDelim (c : Char) : Bool :=
  c = ' ' || c = '\n' || c = '\t' || c = '"' || c = '(' || c = ')'

/-- The identifier loop.  Like the digit loop it consumes the delimiter
that stops it and discards it. -/
def takeIdent : List Char → List Char × List Char
  | [] => ([], [])
  | c :: rest =>
    if isIdentDelim c then ([], rest)
    else
      let p := takeIdent rest
      (c :: p.1, p.2)

/-- One step of Rust `str::replace`, taking one unit of fuel per
character of the text. -/
def replaceFuel (pat rep : List Char) : Nat → List Char → List Char
  | 0, l => l
  | _ + 1, [] => []
  | fuel + 1, c :: rest =>
    if pat.isPrefixOf (c :: rest) then
      rep ++ replaceFuel pat rep fuel ((c :: rest).drop pat.length)
    else c :: replaceFuel pat rep fuel rest

/-- Rust `str::replace` on character lists (for a non-empty pattern; the
fuel in `replaceFuel` is only a structural-recursion device, and
`text.length` always suffices since each step consumes at least one
character). -/
def replaceChars (pat rep text : List Char) : List Char :=
  replaceFuel pat rep text.length text

/-- `unquote`: replace the two-character sequences `\n` and `\t` by a
newline and a tab, in that order (as the source's two `replace` calls). -/
def unquote (text : String) : String :=
  String.mk (replaceChars ['\\', 't'] ['\t'] (replaceChars ['\\', 'n'] ['\n'] text.toList))

/-- Numeric value of a list of decimal digits. -/
def digitsVal (cs : List Char) : Nat :=
  cs.foldl (fun a c => a * 10 + (c.toNat - '0'.toNat)) 0

/-- Largest `i64` value. -/
def i64Max : Int := 2 ^ 63 - 1

/-- Smallest `i64` value. -/
def i64Min : Int := -(2 ^ 63)

theorem skipComment_length_le : ∀ l : List Char, (skipComment l).length ≤ l.length := by
  intro l
  induction l with
  | nil => simp [skipComment]
  | cons c rest ih =>
    simp only [skipComment]
    split
    · simp
    · exact Nat.le_succ_of_le ih

theorem takeStr_length_le :
    ∀ (l : List Char) (p : List Char × List Char), takeStr l = some p → p.2.length ≤ l.length := by
  intro l
  induction l with
  | nil => intro p h; simp [takeStr] at h
  | cons c rest ih =>
    intro p h
    simp only [takeStr] at h
    split at h
    · cases h; simp
    · simp only [Option.map_eq_some'] at h
      obtain ⟨q, hq, rfl⟩ := h
      exact Nat.le_succ_of_le (ih q hq)

theorem takeDigits_length_le : ∀ l : List Char, (takeDigits l).2.length ≤ l.length := by
  intro l
  induction l with
  | nil => simp [takeDigits]
  | cons c rest ih =>
    simp only [takeDigits]
    split
    · exact Nat.le_succ_of_le ih
    · simp

theorem takeIdent_length_le : ∀ l : List Char, (takeIdent l).2.length ≤ l.length := by
  intro l
  induction l with
  | nil => simp [takeIdent]
  | cons c rest ih =>
    simp only [takeIdent]
    split
    · simp
    · exact Nat.le_succ_of_le ih

/-- The tokenizer (`fn lex`), on a list of characters.  `none` models a
lexical panic (unfinished string literal, or an integer literal that does
not fit in an `i64`).  The fuel is only a structural-recursion device:
every arm of the source's `while` loop consumes at least one character,
so any fuel above the length of the input gives the loop's behavior
(`lexChars` below supplies `length + 1`). -/
def lexFuel : Nat → List Char → Option (List Token)
  | 0, _ => none
  | _ + 1, [] => some []
  | fuel + 1, c :: rest =>
    if c = '!' ∧ rest.head? ≠ some '=' then
      (lexFuel fuel rest).map (Token.Bang :: ·)
    else if c = '(' then
      (lexFuel fuel rest).map (Token.LParen :: ·)
    else if c = ')' then
      (lexFuel fuel rest).map (Token.RParen :: ·)
    else if c = '/' ∧ rest.head? = some '/' then
      lexFuel fuel (skipComment rest)
    else if c = '"' then
      match takeStr rest with
      | none => none
      | some p => (lexFuel fuel p.2).map (Token.Str (unquote (String.mk p.1)) :: ·)
    else if c.isDigit then
      let p := takeDigits rest
      if (digitsVal (c :: p.1) : Int) ≤ i64Max then
        (lexFuel fuel p.2).map (Token.Int (digitsVal (c :: p.1)) :: ·)
      else none
    else if c = ' ' ∨ c = '\n' ∨ c = '\t' then
      lexFuel fuel rest
    else
      let p := takeIdent rest
      (lexFuel fuel p.2).map (Token.Ident (String.mk (c :: p.1)) :: ·)

/-- The tokenizer on a list of characters, with enough fuel. -/
def lexChars (l : List Char) : Option (List Token) :=
  lexFuel (l.length + 1) l

/-- The tokenizer on a whole source string. -/
def lex (src : String) : Option (List Token) :=
  lexChars src.toList

/-! ## Integer parsing and formatting

`pop_int` uses Rust's `str::parse::<i64>`: an optional `+`/`-` sign followed
by at least one decimal digit, rejecting values outside the `i64` range.
`push_int` uses `format!` which yields the canonical decimal form, exactly
`toString` on `Int`. -/

/-- Rust's `i64::from_str` on a stack value. -/
def parseI64 (s : String) : Option Int :=
  match s.toList with
  | '-' :: ds =>
    if ds ≠ [] ∧ ds.all Char.isDigit ∧ (digitsVal ds : Int) ≤ 2 ^ 63 then
      some (-(digitsVal ds : Int))
    else none
  | '+' :: ds =>
    if ds ≠ [] ∧ ds.all Char.isDigit ∧ (digitsVal ds : Int) ≤ i64Max then
      some (digitsVal ds)
    else none
  | ds =>
    if ds ≠ [] ∧ ds.all Char.isDigit ∧ (digitsVal ds : Int) ≤ i64Max then
      some (digitsVal ds)
    else none

/-! ## Machine state -/

/-- The machine state (`struct State`).  The label table (a `HashMap`) is
modelled as an association list where insertion prepends and lookup takes
the first match, so that later insertions shadow earlier ones exactly as
`HashMap::insert` overwrites. -/
structure Machine where
  pc : Nat
  current_stack : Nat
  stacks' : List (List String)
  labels : List (String × Nat)
deriving DecidableEq, Repr

/-- `HashMap::get` on the modelled label table. -/
def labelGet (labels : List (String × Nat)) (name : String) : Option Nat :=
  (labels.find? (fun p => p.1 = name)).map (fun p => p.2)

/-- `self.stacks[self.current_stack].push(value)`; `none` models the
out-of-bounds indexing panic (never reached from a valid state). -/
def Machine.push_string (s : Machine) (value : String) : Option Machine :=
  match s.stacks'[s.current_stack]? with
  | none => none
  | some st => some { s with stacks' := s.stacks'.set s.current_stack (value :: st) }

/-- `push_int`: format the integer and push the text. -/
def Machine.push_int (s : Machine) (value : Int) : Option Machine :=
  s.push_string (toString value)

/-- `pop_string`: pop from the current stack; `none` models both the
out-of-bounds indexing panic and the "failed to pop" panic on an empty
stack. -/
def Machine.pop_string (s : Machine) : Option (String × Machine) :=
  match s.stacks'[s.current_stack]? with
  | none => none
  | some [] => none
  | some (v :: rest) =>
    some (v, { s with stacks' := s.stacks'.set s.current_stack rest })

/-- `pop_int`: pop a value and parse it as an `i64`; `none` also covers the
"failed to convert value to int" panic. -/
def Machine.pop_int (s : Machine) : Option (Int × Machine) := do
  let (v, s') ← s.pop_string
  match parseI64 v with
  | none => none
  | some n => some (n, s')

/-- `switch_to_left_stack`: decrement the cursor; panics at the leftmost
stack. -/
def Machine.switch_to_left_stack (s : Machine) : Option Machine :=
  if s.current_stack = 0 then none
  else some { s with current_stack := s.current_stack - 1 }

/-- `switch_to_right_stack`: increment the cursor and append a fresh empty
stack when the cursor just moved past the rightmost one.  Total: it always
succeeds. -/
def Machine.switch_to_right_stack (s : Machine) : Machine :=
  let c := s.current_stack + 1
  if c = s.stacks'.length then
    { s with current_stack := c, stacks' := s.stacks' ++ [[]] }
  else
    { s with current_stack := c }

/-! ## Instructions -/

/-- `$x $y +` (overflow of the `i64` addition panics in a debug build;
modelled as failure). -/
def i_add (s : Machine) : Option Machine := do
  let (y, s) ← s.pop_int
  let (x, s) ← s.pop_int
  if x + y < i64Min ∨ i64Max < x + y then none else s.push_int (x + y)

/-- `$code chr`: the `code as u32` cast wraps modulo `2^32`;
`char::from_u32` rejects surrogates and values above `0x10FFFF`. -/
def i_chr (s : Machine) : Option Machine := do
  let (code, s) ← s.pop_int
  let u := (code % (2 ^ 32 : Int)).toNat
  if Nat.isValidChar u then s.push_string (String.mk [Char.ofNat u]) else none

/-- `$start $end concat` (the first value popped is the suffix). -/
def i_concat (s : Machine) : Option Machine := do
  let (e, s) ← s.pop_string
  let (start, s) ← s.pop_string
  s.push_string (start ++ e)

/-- `$value <=`: pop, move one stack left, push, move back right. -/
def i_copy_left (s : Machine) : Option Machine := do
  let (value, s) ← s.pop_string
  let s ← s.switch_to_left_stack
  let s ← s.push_string value
  pure s.switch_to_right_stack

/-- `$value =>`: pop, move one stack right, push, move back left. -/
def i_copy_right (s : Machine) : Option Machine := do
  let (value, s) ← s.pop_string
  let s := s.switch_to_right_stack
  let s ← s.push_string value
  s.switch_to_left_stack

/-- `$dividend $divisor /`: the source divides the dividend *by itself*
(`dividend/dividend`), ignoring the popped divisor; the division panics
exactly when the dividend is zero. -/
def i_div (s : Machine) : Option Machine := do
  let (divisor, s) ← s.pop_int
  let (dividend, s) ← s.pop_int
  let _ := divisor
  if dividend = 0 then none else s.push_int (Int.tdiv dividend dividend)

/-- `$value dup`. -/
def i_dup (s : Machine) : Option Machine := do
  let (value, s) ← s.pop_string
  let s ← s.push_string value
  s.push_string value

/-- `empty`: push 1 when the current stack is empty, else 0. -/
def i_empty (s : Machine) : Option Machine :=
  match s.stacks'[s.current_stack]? with
  | none => none
  | some st => s.push_int (if st.isEmpty then 1 else 0)

/-- `input`: push one line read from standard input (passed in as `inp`,
already without its trailing newline). -/
def i_input (inp : String) (s : Machine) : Option Machine :=
  s.push_string inp

/-- `$x $y ==`. -/
def i_eq (s : Machine) : Option Machine := do
  let (y, s) ← s.pop_string
  let (x, s) ← s.pop_string
  s.push_int (if x = y then 1 else 0)

/-- `$string $index .`: `index as usize` wraps modulo `2^64`;
`chars().nth` selects the character at that *character* position. -/
def i_get (s : Machine) : Option Machine := do
  let (index, s) ← s.pop_int
  let (string, s) ← s.pop_string
  match string.toList[(index % (2 ^ 64 : Int)).toNat]? with
  | none => none
  | some c => s.push_string (String.mk [c])

/-- `$condition $label goto_if`: looks the label up only when the
condition is non-zero. -/
def i_goto_if (s : Machine) : Option Machine := do
  let (label, s) ← s.pop_string
  let (condition, s) ← s.pop_int
  if condition ≠ 0 then
    match labelGet s.labels label with
    | some pc => some { s with pc := pc }
    | none => none
  else some s

/-- `$pc jump`: `pc as usize` wraps modulo `2^64`. -/
def i_jump (s : Machine) : Option Machine := do
  let (pc, s) ← s.pop_int
  some { s with pc := (pc % (2 ^ 64 : Int)).toNat }

/-- `$condition $pc jump_if`. -/
def i_jump_if (s : Machine) : Option Machine := do
  let (pc, s) ← s.pop_int
  let (condition, s) ← s.pop_int
  if condition ≠ 0 then some { s with pc := (pc % (2 ^ 64 : Int)).toNat }
  else some s

/-- `$string len`: the byte length of the UTF-8 encoding. -/
def i_len (s : Machine) : Option Machine := do
  let (string, s) ← s.pop_string
  s.push_int (string.utf8ByteSize : Int)

/-- `$x $y *` (debug-build overflow panics; modelled as failure). -/
def i_mul (s : Machine) : Option Machine := do
  let (y, s) ← s.pop_int
  let (x, s) ← s.pop_int
  if x * y < i64Min ∨ i64Max < x * y then none else s.push_int (x * y)

/-- `$value $modulo %`: Rust's `%` (truncated remainder) panics when the
right operand is zero, and on the single overflowing pair
`(i64::MIN, -1)`. -/
def i_mod (s : Machine) : Option Machine := do
  let (modulo, s) ← s.pop_int
  let (value, s) ← s.pop_int
  if modulo = 0 ∨ (value = i64Min ∧ modulo = -1) then none
  else s.push_int (Int.tmod value modulo)

/-- `$x $y !=` (this handler pops `x` first, then `y`). -/
def i_neq (s : Machine) : Option Machine := do
  let (x, s) ← s.pop_string
  let (y, s) ← s.pop_string
  s.push_int (if x ≠ y then 1 else 0)

/-- `$value pop`. -/
def i_pop (s : Machine) : Option Machine := do
  let (_, s) ← s.pop_string
  some s

/-- `$value print`: the value goes to standard output, which is not
modelled. -/
def i_print (s : Machine) : Option Machine := do
  let (_, s) ← s.pop_string
  some s

/-- `!`: push the current program counter. -/
def i_save_pc (s : Machine) : Option Machine :=
  s.push_int (s.pc : Int)

/-- `$base $by -` (debug-build overflow panics; modelled as failure). -/
def i_sub (s : Machine) : Option Machine := do
  let (by_, s) ← s.pop_int
  let (base, s) ← s.pop_int
  if base - by_ < i64Min ∨ i64Max < base - by_ then none
  else s.push_int (base - by_)

/-! ## Label pass and execution loop -/

/-- `instr.starts_with(':')` (a colon is a single byte, hence a single
character). -/
def startsWithColon (instr : String) : Bool :=
  instr.toList.head? = some ':'

/-- `&instr[1..]` on a label-defining identifier: the text without its
one-byte colon marker. -/
def labelName (instr : String) : String :=
  String.mk (instr.toList.drop 1)

/-- The first pass of `main`, starting at token index `i`: for every
`Ident` token beginning with `:`, insert `(text-without-prefix, index)`
into the label table.  Since insertion into the modelled table prepends
and lookup takes the first match, entries produced by *later* tokens are
placed in front of the entry for the token at index `i`, so the last
definition wins exactly as with `HashMap::insert`. -/
def buildLabelsFrom (i : Nat) : List Token → List (String × Nat)
  | [] => []
  | t :: rest =>
    match t with
    | Token.Ident instr =>
      if startsWithColon instr then
        buildLabelsFrom (i + 1) rest ++ [(labelName instr, i)]
      else buildLabelsFrom (i + 1) rest
    | _ => buildLabelsFrom (i + 1) rest

/-- The label table of a whole token sequence. -/
def buildLabels (toks : List Token) : List (String × Nat) :=
  buildLabelsFrom 0 toks

/-- The machine state at the start of the execution pass. -/
def initMachine (toks : List Token) : Machine :=
  { pc := 0, current_stack := 0, stacks' := [[]], labels := buildLabels toks }

/-- The dispatch on one token (the body of the `match` in `main`'s second
loop, *without* the final `state.pc += 1`).  `inp` is the line `input`
would read. -/
def execToken (inp : String) (s : Machine) : Token → Option Machine
  | Token.LParen => some s
  | Token.RParen => some s
  | Token.Bang => i_save_pc s
  | Token.Int i => s.push_int i
  | Token.Str str => s.push_string str
  | Token.Ident instr =>
    if instr = "+" then i_add s
    else if instr = "-" then i_sub s
    else if instr = "*" then i_mul s
    else if instr = "/" then i_div s
    else if instr = "%" then i_mod s
    else if instr = "==" then i_eq s
    else if instr = "!=" then i_neq s
    else if instr = "=>" then i_copy_right s
    else if instr = "<=" then i_copy_left s
    else if instr = "." then i_get s
    else if instr = "->" then some s.switch_to_right_stack
    else if instr = "<-" then s.switch_to_left_stack
    else if instr = "chr" then i_chr s
    else if instr = "concat" then i_concat s
    else if instr = "debug" then some s
    else if instr = "dup" then i_dup s
    else if instr = "empty" then i_empty s
    else if instr = "input" then i_input inp s
    else if instr = "goto_if" then i_goto_if s
    else if instr = "jump" then i_jump s
    else if instr = "jump_if" then i_jump_if s
    else if instr = "len" then i_len s
    else if instr = "pop" then i_pop s
    else if instr = "print" then i_print s
    else if startsWithColon instr then some s
    else
      match labelGet s.labels instr with
      | some pc => some { s with pc := pc }
      | none => none

/-- One iteration of the execution loop: dispatch on the token at the
program counter, then `state.pc += 1`.  `none` when the program counter is
past the end (the loop would not run) or when the instruction panics.
The increment is taken on an unbounded natural number here; in the source
`pc` is a `usize`, so the increment is a checked add that can overflow at
`2 ^ 64 - 1` — `execStepChecked` below models that check, and the two
agree on every step whose incremented counter still fits in a `usize`
(`execStep_of_execStepChecked`). -/
def execStep (inp : String) (toks : List Token) (s : Machine) : Option Machine :=
  match toks[s.pc]? with
  | none => none
  | some t => (execToken inp s t).map (fun s' => { s' with pc := s'.pc + 1 })

/-- One iteration of the execution loop with the `state.pc += 1`
increment modelled as the debug-build checked `usize` addition: the add
panics (`none`) exactly when the instruction body left the counter at
`2 ^ 64 - 1`, the one `usize` value whose increment overflows — reachable
only by `jump`ing to a negative target that wraps to it, such as `-1`. -/
def execStepChecked (inp : String) (toks : List Token) (s : Machine) : Option Machine :=
  match toks[s.pc]? with
  | none => none
  | some t =>
    (execToken inp s t).bind fun s' =>
      if s'.pc + 1 < 2 ^ 64 then some { s' with pc := s'.pc + 1 } else none

/-- The whole execution loop, with fuel: runs `execStep` while
`pc < toks.length`, returning the final state on normal termination and
`none` on a panic (or when the fuel runs out). -/
def runFuel (inp : String) (toks : List Token) : Nat → Machine → Option Machine
  | 0, _ => none
  | fuel + 1, s =>
    if s.pc < toks.length then
      match execStep inp toks s with
      | none => none
      | some s' => runFuel inp toks fuel s'
    else some s

/-- Run a whole source program: resolve nothing (includes are external),
lex, build the label table, execute. -/
def runProgram (inp : String) (src : String) (fuel : Nat) : Option Machine := do
  let toks ← lex src
  runFuel inp toks fuel (initMachine toks)

/-! ## Further definitions used by the statements -/

/-- Whether the token at index `k` is a label definition for `name`. -/
def definesLabel (toks : List Token) (k : Nat) (name : String) : Bool :=
  match toks[k]? with
  | some (Token.Ident instr) => startsWithColon instr && labelName instr == name
  | _ => false

/-- The built-in mnemonics of the dispatch table in `main`. -/
def isBuiltin (instr : String) : Bool :=
  instr == "+" || instr == "-" || instr == "*" || instr == "/" || instr == "%" ||
  instr == "==" || instr == "!=" || instr == "=>" || instr == "<=" || instr == "." ||
  instr == "->" || instr == "<-" || instr == "chr" || instr == "concat" ||
  instr == "debug" || instr == "dup" || instr == "empty" || instr == "input" ||
  instr == "goto_if" || instr == "jump" || instr == "jump_if" || instr == "len" ||
  instr == "pop" || instr == "print"

/-- The cursor invariant: the current stack index is valid. -/
def Machine.inv (s : Machine) : Prop :=
  s.current_stack < s.stacks'.length

instance (s : Machine) : Decidable s.inv :=
  inferInstanceAs (Decidable (_ < _))

/-! ## Basic facts about the machine primitives -/

theorem Machine.pop_string_eq_some (s : Machine) {v : String} {rest : List String}
    (h : s.stacks'[s.current_stack]? = some (v :: rest)) :
    s.pop_string = some (v, { s with stacks' := s.stacks'.set s.current_stack rest }) := by
  simp [Machine.pop_string, h]

theorem Machine.push_string_eq_some (s : Machine) {st : List String} (v : String)
    (h : s.stacks'[s.current_stack]? = some st) :
    s.push_string v = some { s with stacks' := s.stacks'.set s.current_stack (v :: st) } := by
  simp [Machine.push_string, h]

theorem Machine.pop_int_eq_some (s : Machine) {v : String} {rest : List String} {n : Int}
    (h : s.stacks'[s.current_stack]? = some (v :: rest)) (hp : parseI64 v = some n) :
    s.pop_int = some (n, { s with stacks' := s.stacks'.set s.current_stack rest }) := by
  simp [Machine.pop_int, Machine.pop_string_eq_some s h, hp]

theorem get?_cur_of_lt {s : Machine} (h : s.current_stack < s.stacks'.length)
    {st : List String} : (s.stacks'.set s.current_stack st)[s.current_stack]? = some st := by
  simpa [List.get?_eq_getElem?] using List.getElem?_set_self h

/-! ## Claims C1 and C2: the division defect -/

/-- C1: the claim says `/` pushes the integer quotient dividend ÷ divisor.
The code instead pushes `dividend/dividend`: running `7 2 /` leaves `"1"`
on the stack, although `7 ÷ 2 = 3` (truncated division).  This is the
defect the spec's §9 design note acknowledges. -/
theorem c1_div_pushes_dividend_div_dividend :
    (runProgram "" "7 2 /" 10).map Machine.stacks' = some [["1"]] ∧
    Int.tdiv 7 2 = 3 := by
  constructor
  · decide
  · decide

/-- C2: the claim says `/` fails fatally exactly when the popped divisor
is zero.  In the code the failure condition of `/` depends only on the
dividend: `3 0 /` (divisor 0) terminates normally pushing `"1"`, while
`0 5 /` (divisor 5) aborts. -/
theorem c2_div_zero_divisor_not_fatal :
    (runProgram "" "3 0 /" 10).map Machine.stacks' = some [["1"]] ∧
    runProgram "" "0 5 /" 10 = none := by
  constructor
  · decide
  · decide

/-! ## Claim C3: parentheses after a literal or identifier are swallowed -/

/-- C3 counterexample: in `12)` the `)` is consumed by the integer-literal
loop and in `foo(` the `(` is consumed by the identifier loop; neither
yields a parenthesis token, contradicting the claim that they "still yield
their own token". -/
theorem c3_paren_after_literal_swallowed :
    lex "12)" = some [Token.Int 12] ∧
    lex "foo(" = some [Token.Ident "foo"] := by
  constructor
  · decide
  · decide

/-- C3 amended: a `(` or `)` at the start of the remaining input (hence
not immediately following the digits of an integer literal or the
characters of an identifier) is emitted as a standalone token, but a
parenthesis immediately following an integer literal or an identifier is
consumed as that token's terminating delimiter and yields no token: the
literal/identifier loop consumes its own characters plus the one
delimiter that ends it. -/
theorem c3_amended_paren_tokens :
    (∀ rest : List Char, lexChars (')' :: rest) = (lexChars rest).map (Token.RParen :: ·)) ∧
    (∀ rest : List Char, lexChars ('(' :: rest) = (lexChars rest).map (Token.LParen :: ·)) ∧
    lex "12)" = some [Token.Int 12] ∧
    lex "foo(" = some [Token.Ident "foo"] ∧
    lex "12 )" = some [Token.Int 12, Token.RParen] ∧
    lex "foo (" = some [Token.Ident "foo", Token.LParen] := by
  refine ⟨fun rest => rfl, fun rest => rfl, ?_, ?_, ?_, ?_⟩ <;> decide

/-- C3 amended witness: the standalone-parenthesis part applied to the
concrete remaining input `a`. -/
theorem c3_amended_witness :
    lexChars (')' :: ['a']) = (lexChars ['a']).map (Token.RParen :: ·) :=
  c3_amended_paren_tokens.1 ['a']

/-! ## Claim C4: `.` indexes by character, not by byte -/

/-- C4 counterexample: with the two-byte (one-character) string `"é"` and
index `1` on the stack, `.` aborts although byte index 1 is within the
string's byte range — the code indexes by character (`chars().nth`), not
by byte. -/
theorem c4_get_fails_on_valid_byte_index :
    i_get { pc := 0, current_stack := 0, stacks' := [["1", "é"]], labels := [] } = none ∧
    "é".utf8ByteSize = 2 := by
  constructor
  · decide
  · decide

/-! ## Claim C5: `chr` truncates to 32 bits before validating -/

/-- C5 counterexample: `chr` first truncates the popped integer with an
`as u32` cast.  `4294967361 = 2^32 + 65` exceeds the Unicode scalar range
and `-4294967231 ≡ 65 (mod 2^32)` is negative, yet both push `"A"`
instead of failing. -/
theorem c5_chr_large_and_negative_codes_succeed :
    (i_chr { pc := 0, current_stack := 0, stacks' := [["4294967361"]], labels := [] }).map
        Machine.stacks' = some [["A"]] ∧
    (i_chr { pc := 0, current_stack := 0, stacks' := [["-4294967231"]], labels := [] }).map
        Machine.stacks' = some [["A"]] := by
  constructor
  · decide
  · decide

/-! ## Claim C8: `=>` then `<=` is not a round trip -/

/-- C8 counterexample: from the initial stack holding just `"v"`, `=>`
moves `"v"` to the (freshly created) right stack; `<=` then pops from the
now-empty origin stack and aborts — the round trip is fatal, not a no-op. -/
theorem c8_copy_right_then_left_fatal :
    i_copy_right { pc := 0, current_stack := 0, stacks' := [["v"]], labels := [] } =
      some { pc := 0, current_stack := 0, stacks' := [[], ["v"]], labels := [] } ∧
    i_copy_left { pc := 0, current_stack := 0, stacks' := [[], ["v"]], labels := [] } = none := by
  constructor
  · decide
  · decide

theorem lt_length_of_getElem?_eq_some {α : Type} {l : List α} {n : Nat} {a : α}
    (h : l[n]? = some a) : n < l.length := by
  by_contra hn
  rw [List.getElem?_eq_none (Nat.le_of_not_lt hn)] at h
  cases h

/-- C4 amended: `.` interprets the popped integer as a `u64` and uses it
as a *character* (code-point) index into the string: it pushes the
one-character string made of that character when the index is a valid
character position, and fails fatally otherwise (so the failure condition
is the character count, not the byte length).  The two `"hello"`
scenarios behave as stated in the claim. -/
theorem c4_amended_get_char_index :
    (∀ (s : Machine) (idx str : String) (i : Int) (rest : List String) (c : Char),
        s.stacks'[s.current_stack]? = some (idx :: str :: rest) →
        parseI64 idx = some i →
        str.toList[(i % (2 ^ 64 : Int)).toNat]? = some c →
        i_get s = some { s with stacks' := s.stacks'.set s.current_stack (String.mk [c] :: rest) }) ∧
    (∀ (s : Machine) (idx str : String) (i : Int) (rest : List String),
        s.stacks'[s.current_stack]? = some (idx :: str :: rest) →
        parseI64 idx = some i →
        str.toList[(i % (2 ^ 64 : Int)).toNat]? = none →
        i_get s = none) ∧
    (runProgram "" "\"hello\" 1 ." 10).map Machine.stacks' = some [["e"]] ∧
    runProgram "" "\"hello\" 10 ." 10 = none := by
  refine ⟨?_, ?_, by decide, by decide⟩
  · intro s idx str i rest c h hp hc
    have hlt := lt_length_of_getElem?_eq_some h
    have h1 := Machine.pop_int_eq_some s h hp
    have h2 := Machine.pop_string_eq_some
      { s with stacks' := s.stacks'.set s.current_stack (str :: rest) } (get?_cur_of_lt hlt)
    have h3 := Machine.push_string_eq_some
      { s with stacks' := s.stacks'.set s.current_stack rest } (String.mk [c]) (get?_cur_of_lt hlt)
    simp only [i_get, h1, Option.bind_eq_bind, Option.some_bind, h2, List.set_set, hc, h3]
  · intro s idx str i rest h hp hc
    have hlt := lt_length_of_getElem?_eq_some h
    have h1 := Machine.pop_int_eq_some s h hp
    have h2 := Machine.pop_string_eq_some
      { s with stacks' := s.stacks'.set s.current_stack (str :: rest) } (get?_cur_of_lt hlt)
    simp only [i_get, h1, Option.bind_eq_bind, Option.some_bind, h2, List.set_set, hc]

/-- C4 amended witness: the general part applied to the machine holding
`"é"` and character index `0` (the only valid character position). -/
theorem c4_amended_witness :
    i_get { pc := 0, current_stack := 0, stacks' := [["0", "éa"]], labels := [] } =
      some { pc := 0, current_stack := 0, stacks' := [["é"]], labels := [] } := by
  have := c4_amended_get_char_index.1
    { pc := 0, current_stack := 0, stacks' := [["0", "éa"]], labels := [] }
    "0" "éa" 0 [] 'é' (by decide) (by decide) (by decide)
  simpa using this

/-- C5 amended: `chr` reduces the popped integer modulo `2^32` (the
`as u32` cast) and fails exactly when the reduced value is not a valid
Unicode scalar (a surrogate or above `0x10FFFF`); otherwise it pushes the
one-character string with that code point.  Negative or out-of-range
inputs therefore succeed whenever their low 32 bits form a valid scalar. -/
theorem c5_amended_chr_truncates_mod_2_32 :
    ∀ (s : Machine) (v : String) (code : Int) (rest : List String),
      s.stacks'[s.current_stack]? = some (v :: rest) →
      parseI64 v = some code →
      (Nat.isValidChar ((code % (2 ^ 32 : Int)).toNat) →
        i_chr s = some { s with stacks' := s.stacks'.set s.current_stack (String.mk [Char.ofNat ((code % (2 ^ 32 : Int)).toNat)] :: rest) }) ∧
      (¬ Nat.isValidChar ((code % (2 ^ 32 : Int)).toNat) → i_chr s = none) := by
  intro s v code rest h hp
  have hlt := lt_length_of_getElem?_eq_some h
  have h1 := Machine.pop_int_eq_some s h hp
  constructor
  · intro hv
    have h3 := Machine.push_string_eq_some
      { s with stacks' := s.stacks'.set s.current_stack rest }
      (String.mk [Char.ofNat ((code % (2 ^ 32 : Int)).toNat)]) (get?_cur_of_lt hlt)
    simp only [i_chr, h1, Option.bind_eq_bind, Option.some_bind, if_pos hv, List.set_set, h3]
  · intro hv
    simp only [i_chr, h1, Option.bind_eq_bind, Option.some_bind, if_neg hv]

/-- C5 amended witness: the general theorem applied to the concrete code
`4294967361 = 2^32 + 65`, whose low 32 bits are `65`. -/
theorem c5_amended_witness :
    i_chr { pc := 0, current_stack := 0, stacks' := [["4294967361"]], labels := [] } =
      some { pc := 0, current_stack := 0, stacks' := [["A"]], labels := [] } := by
  have := (c5_amended_chr_truncates_mod_2_32
    { pc := 0, current_stack := 0, stacks' := [["4294967361"]], labels := [] }
    "4294967361" 4294967361 [] (by decide) (by decide)).1 (by decide)
  simpa using this

/-! ## Claim C7: the program counter is always incremented after dispatch -/

theorem execStep_of_execStepChecked (inp : String) (toks : List Token) (s s' : Machine)
    (h : execStepChecked inp toks s = some s') : execStep inp toks s = some s' := by
  simp only [execStepChecked] at h
  cases htok : toks[s.pc]? with
  | none => rw [htok] at h; cases h
  | some t =>
    rw [htok] at h
    simp only [Option.bind_eq_bind, Option.bind_eq_some] at h
    obtain ⟨s'', h1, h2⟩ := h
    split at h2
    · cases h2
      simp only [execStep, htok, h1, Option.map_some']
    · cases h2

/-- C7: the loop's `state.pc += 1` is a checked `usize` add, modelled by
`execStepChecked`.  Every successful step is a token dispatch followed by
that increment, so the final counter is one more than whatever counter
the instruction body left — for a `jump` whose applied target is `t`,
the counter ends at `t + 1` and the token at `t + 1` is the next one
examined.  The single exception is the wrapped target `2 ^ 64 - 1`
(reached by jumping to `-1`): there the increment overflows the `usize`
and the step aborts, so no next token is examined at all. -/
theorem c7_pc_incremented_after_every_instruction :
    (∀ (inp : String) (toks : List Token) (s s' : Machine),
        execStepChecked inp toks s = some s' →
        ∃ t s'', toks[s.pc]? = some t ∧ execToken inp s t = some s'' ∧
          s' = { s'' with pc := s''.pc + 1 }) ∧
    (∀ (inp : String) (toks : List Token) (s : Machine) (v : String) (t : Int)
        (rest : List String),
        toks[s.pc]? = some (Token.Ident "jump") →
        s.stacks'[s.current_stack]? = some (v :: rest) →
        parseI64 v = some t →
        ((t % (2 ^ 64 : Int)).toNat + 1 < 2 ^ 64 →
          execStepChecked inp toks s =
            some { s with stacks' := s.stacks'.set s.current_stack rest, pc := (t % (2 ^ 64 : Int)).toNat + 1 }) ∧
        ((t % (2 ^ 64 : Int)).toNat = 2 ^ 64 - 1 →
          execStepChecked inp toks s = none)) := by
  constructor
  · intro inp toks s s' h
    simp only [execStepChecked] at h
    cases htok : toks[s.pc]? with
    | none => rw [htok] at h; cases h
    | some t =>
      rw [htok] at h
      simp only [Option.bind_eq_bind, Option.bind_eq_some] at h
      obtain ⟨s'', h1, h2⟩ := h
      split at h2
      · cases h2
        exact ⟨t, s'', rfl, h1, rfl⟩
      · cases h2
  · intro inp toks s v t rest htok h hp
    have hexec : execToken inp s (Token.Ident "jump") = i_jump s := rfl
    have h1 := Machine.pop_int_eq_some s h hp
    constructor
    · intro hlt
      simp only [execStepChecked, htok, hexec, i_jump, h1, Option.bind_eq_bind,
        Option.some_bind, if_pos hlt]
    · intro heq
      have hn : ¬ ((t % (2 ^ 64 : Int)).toNat + 1 < 2 ^ 64) := by omega
      simp only [execStepChecked, htok, hexec, i_jump, h1, Option.bind_eq_bind,
        Option.some_bind, if_neg hn]

/-- C7 witness: a concrete `jump` with target 7 leaves the counter at 8,
and a `jump` to `-1` (wrapping to `2 ^ 64 - 1`) aborts at the increment. -/
theorem c7_witness :
    execStepChecked "" [Token.Ident "jump"] { pc := 0, current_stack := 0, stacks' := [["7"]], labels := [] } =
      some { pc := 8, current_stack := 0, stacks' := [[]], labels := [] } ∧
    execStepChecked "" [Token.Ident "jump"] { pc := 0, current_stack := 0, stacks' := [["-1"]], labels := [] } =
      none := by
  constructor
  · have := (c7_pc_incremented_after_every_instruction.2 "" [Token.Ident "jump"]
      { pc := 0, current_stack := 0, stacks' := [["7"]], labels := [] } "7" 7 []
      (by decide) (by decide) (by decide)).1 (by decide)
    simpa using this
  · exact (c7_pc_incremented_after_every_instruction.2 "" [Token.Ident "jump"]
      { pc := 0, current_stack := 0, stacks' := [["-1"]], labels := [] } "-1" (-1) []
      (by decide) (by decide) (by decide)).2 (by decide)

/-! ## Claim C10: `goto_if` with a zero condition ignores the label table -/

/-- C10: when the popped condition parses to `0`, `goto_if` discards the
popped label string and condition, never consults the label table (the
statement holds for an arbitrary `labels` field, in particular when the
label is unknown), and lets the counter advance normally to `pc + 1`. -/
theorem c10_goto_if_zero_ignores_label :
    ∀ (inp : String) (toks : List Token) (s : Machine) (lbl cond : String)
      (rest : List String),
      toks[s.pc]? = some (Token.Ident "goto_if") →
      s.stacks'[s.current_stack]? = some (lbl :: cond :: rest) →
      parseI64 cond = some 0 →
      execStep inp toks s =
        some { s with stacks' := s.stacks'.set s.current_stack rest, pc := s.pc + 1 } := by
  intro inp toks s lbl cond rest htok h hp
  have hlt := lt_length_of_getElem?_eq_some h
  have hexec : execToken inp s (Token.Ident "goto_if") = i_goto_if s := rfl
  have h1 := Machine.pop_string_eq_some s h
  have h2 := Machine.pop_int_eq_some
    { s with stacks' := s.stacks'.set s.current_stack (cond :: rest) } (get?_cur_of_lt hlt) hp
  simp only [execStep, htok, hexec, i_goto_if, h1, h2, Option.bind_eq_bind, Option.some_bind,
    List.set_set]
  simp

/-- C10 witness: with an empty label table and the unknown label
`"nowhere"`, a zero condition still succeeds and merely advances. -/
theorem c10_witness :
    labelGet ([] : List (String × Nat)) "nowhere" = none ∧
    execStep "" [Token.Ident "goto_if"]
      { pc := 0, current_stack := 0, stacks' := [["nowhere", "0"]], labels := [] } =
      some { pc := 1, current_stack := 0, stacks' := [[]], labels := [] } := by
  constructor
  · decide
  · have := c10_goto_if_zero_ignores_label "" [Token.Ident "goto_if"]
      { pc := 0, current_stack := 0, stacks' := [["nowhere", "0"]], labels := [] }
      "nowhere" "0" [] (by decide) (by decide) (by decide)
    simpa using this

/-! ## Claim C6: the last definition of a label wins -/

theorem definesLabel_cons_succ (t : Token) (rest : List Token) (k : Nat) (name : String) :
    definesLabel (t :: rest) (k + 1) name = definesLabel rest k name := by
  simp [definesLabel]

theorem definesLabel_of_length_le {toks : List Token} {k : Nat} (name : String)
    (h : toks.length ≤ k) : definesLabel toks k name = false := by
  simp [definesLabel, List.getElem?_eq_none h]

theorem labelGet_append (l₁ l₂ : List (String × Nat)) (name : String) :
    labelGet (l₁ ++ l₂) name = (labelGet l₁ name).or (labelGet l₂ name) := by
  simp only [labelGet, List.find?_append]
  cases l₁.find? (fun p => p.1 = name) <;> simp

theorem buildLabelsFrom_get_none (name : String) :
    ∀ (toks : List Token) (b : Nat), (∀ k, definesLabel toks k name = false) →
    labelGet (buildLabelsFrom b toks) name = none := by
  intro toks
  induction toks with
  | nil => intro b _; rfl
  | cons t rest ih =>
    intro b hnone
    have h0 := hnone 0
    have hrest : ∀ k, definesLabel rest k name = false := fun k => by
      have := hnone (k + 1); rwa [definesLabel_cons_succ] at this
    cases t with
    | Ident instr =>
      by_cases hc : startsWithColon instr
      · have hne : ¬ labelName instr = name := by
          simp [definesLabel, hc] at h0
          exact h0
        simp only [buildLabelsFrom, if_pos hc, labelGet_append, ih (b + 1) hrest]
        simp [labelGet, List.find?, hne]
      · simp only [buildLabelsFrom, if_neg hc]
        exact ih (b + 1) hrest
    | Int n => exact ih (b + 1) hrest
    | Str str => exact ih (b + 1) hrest
    | LParen => exact ih (b + 1) hrest
    | RParen => exact ih (b + 1) hrest
    | Bang => exact ih (b + 1) hrest

theorem buildLabelsFrom_get_last (name : String) :
    ∀ (toks : List Token) (b j : Nat), definesLabel toks j name = true →
    (∀ k, j < k → definesLabel toks k name = false) →
    labelGet (buildLabelsFrom b toks) name = some (b + j) := by
  intro toks
  induction toks with
  | nil =>
    intro b j hj _
    simp [definesLabel] at hj
  | cons t rest ih =>
    intro b j hj hafter
    cases j with
    | zero =>
      have hrest : ∀ k, definesLabel rest k name = false := fun k => by
        have := hafter (k + 1) (Nat.succ_pos k); rwa [definesLabel_cons_succ] at this
      cases t with
      | Ident instr =>
        have h0 : startsWithColon instr ∧ labelName instr = name := by
          simpa [definesLabel] using hj
        simp only [buildLabelsFrom, if_pos h0.1, labelGet_append,
          buildLabelsFrom_get_none name rest (b + 1) hrest]
        simp [labelGet, List.find?, h0.2]
      | Int n => simp [definesLabel] at hj
      | Str str => simp [definesLabel] at hj
      | LParen => simp [definesLabel] at hj
      | RParen => simp [definesLabel] at hj
      | Bang => simp [definesLabel] at hj
    | succ j' =>
      have hj' : definesLabel rest j' name = true := by
        rwa [definesLabel_cons_succ] at hj
      have hafter' : ∀ k, j' < k → definesLabel rest k name = false := fun k hk => by
        have := hafter (k + 1) (Nat.succ_lt_succ hk); rwa [definesLabel_cons_succ] at this
      have ihres := ih (b + 1) j' hj' hafter'
      have harith : b + 1 + j' = b + (j' + 1) := by omega
      cases t with
      | Ident instr =>
        by_cases hc : startsWithColon instr
        · simp only [buildLabelsFrom, if_pos hc, labelGet_append, ihres]
          simp [harith]
        · simp only [buildLabelsFrom, if_neg hc]
          rw [ihres, harith]
      | Int n => simp only [buildLabelsFrom]; rw [ihres, harith]
      | Str str => simp only [buildLabelsFrom]; rw [ihres, harith]
      | LParen => simp only [buildLabelsFrom]; rw [ihres, harith]
      | RParen => simp only [buildLabelsFrom]; rw [ihres, harith]
      | Bang => simp only [buildLabelsFrom]; rw [ihres, harith]

/-- Dispatch of an identifier that is neither a built-in mnemonic nor a
label definition: a bare call, looked up in the label table. -/
theorem execToken_bare_call (inp : String) (s : Machine) (instr : String)
    (hb : isBuiltin instr = false) (hc : startsWithColon instr = false) :
    execToken inp s (Token.Ident instr) =
      match labelGet s.labels instr with
      | some pc => some { s with pc := pc }
      | none => none := by
  simp only [isBuiltin, Bool.or_eq_false_iff, beq_eq_false_iff_ne, ne_eq] at hb
  obtain ⟨⟨⟨⟨⟨⟨⟨⟨⟨⟨⟨⟨⟨⟨⟨⟨⟨⟨⟨⟨⟨⟨⟨h1, h2⟩, h3⟩, h4⟩, h5⟩, h6⟩, h7⟩, h8⟩, h9⟩, h10⟩,
    h11⟩, h12⟩, h13⟩, h14⟩, h15⟩, h16⟩, h17⟩, h18⟩, h19⟩, h20⟩, h21⟩, h22⟩, h23⟩, h24⟩ := hb
  simp only [execToken, if_neg h1, if_neg h2, if_neg h3, if_neg h4, if_neg h5, if_neg h6,
    if_neg h7, if_neg h8, if_neg h9, if_neg h10, if_neg h11, if_neg h12, if_neg h13,
    if_neg h14, if_neg h15, if_neg h16, if_neg h17, if_neg h18, if_neg h19, if_neg h20,
    if_neg h21, if_neg h22, if_neg h23, if_neg h24, hc, Bool.false_eq_true, if_false]

/-- C6: when a label name is defined at two positions `i < j` and nowhere
after `j`, the label table maps the name to `j`, the index of the later
defining occurrence; and a bare call to that name (an identifier that is
neither a built-in nor itself a label definition) sets the program counter
to `j` — so after the step's increment execution resumes at `j + 1`. -/
theorem c6_last_label_definition_wins :
    ∀ (toks : List Token) (name : String) (i j : Nat),
      i < j →
      definesLabel toks i name = true →
      definesLabel toks j name = true →
      (∀ k, k < toks.length → j < k → definesLabel toks k name = false) →
      labelGet (buildLabels toks) name = some j ∧
      (∀ (inp : String) (s : Machine),
        s.labels = buildLabels toks →
        toks[s.pc]? = some (Token.Ident name) →
        isBuiltin name = false →
        startsWithColon name = false →
        execStep inp toks s = some { s with pc := j + 1 }) := by
  intro toks name i j hij hi hj hbound
  have hall : ∀ k, j < k → definesLabel toks k name = false := by
    intro k hk
    by_cases hlen : k < toks.length
    · exact hbound k hlen hk
    · exact definesLabel_of_length_le name (Nat.le_of_not_lt hlen)
  have hget : labelGet (buildLabels toks) name = some j := by
    have := buildLabelsFrom_get_last name toks 0 j hj hall
    simpa [buildLabels] using this
  refine ⟨hget, ?_⟩
  intro inp s hlab htok hb hc
  have hdisp := execToken_bare_call inp s name hb hc
  rw [hlab, hget] at hdisp
  simp only [execStep, htok, hdisp, Option.map_some']
  rw [hlab]

/-- C6 witness: in the program `:a :a a`, the table maps `a` to index 1,
and executing the bare call at index 2 resumes at index `1 + 1 = 2`. -/
theorem c6_witness :
    labelGet (buildLabels [Token.Ident ":a", Token.Ident ":a", Token.Ident "a"]) "a" = some 1 ∧
    execStep "" [Token.Ident ":a", Token.Ident ":a", Token.Ident "a"]
      { pc := 2, current_stack := 0, stacks' := [[]], labels := buildLabels [Token.Ident ":a", Token.Ident ":a", Token.Ident "a"] } =
      some { pc := 2, current_stack := 0, stacks' := [[]], labels := buildLabels [Token.Ident ":a", Token.Ident ":a", Token.Ident "a"] } := by
  have := c6_last_label_definition_wins [Token.Ident ":a", Token.Ident ":a", Token.Ident "a"]
    "a" 0 1 (by decide) (by decide) (by decide) (by decide)
  exact ⟨this.1, this.2 "" _ rfl (by decide) (by decide) (by decide)⟩

/-! ## Claim C8: what a `=>`/`<=` round trip really does -/

theorem getElem?_append_length {α : Type} (A : List α) (x : α) (B : List α) :
    (A ++ x :: B)[A.length]? = some x := by
  induction A with
  | nil => simp
  | cons a A ih => simpa using ih

theorem set_append_length {α : Type} (A : List α) (x y : α) (B : List α) :
    (A ++ x :: B).set A.length y = A ++ y :: B := by
  induction A with
  | nil => rfl
  | cons a A ih => simp [List.set, ih]

theorem getElem?_append_length_succ {α : Type} (A : List α) (x b : α) (B : List α) :
    (A ++ x :: b :: B)[A.length + 1]? = some b := by
  have := getElem?_append_length (A ++ [x]) b B
  simpa using this

theorem set_append_length_succ {α : Type} (A : List α) (x b y : α) (B : List α) :
    (A ++ x :: b :: B).set (A.length + 1) y = A ++ x :: y :: B := by
  have h := set_append_length (A ++ [x]) b y B
  simp only [List.append_assoc, List.cons_append, List.nil_append, List.length_append,
    List.length_cons, List.length_nil] at h
  exact h

theorem exists_decomp {α : Type} {l : List α} {n : Nat} {x : α} (h : l[n]? = some x) :
    ∃ A B, l = A ++ x :: B ∧ A.length = n := by
  have hlt := lt_length_of_getElem?_eq_some h
  have h2 := List.getElem?_eq_getElem hlt
  rw [h] at h2
  have hx : l[n] = x := (Option.some_inj.mp h2).symm
  refine ⟨l.take n, l.drop (n + 1), ?_, ?_⟩
  · conv_lhs => rw [← List.take_append_drop n l, List.drop_eq_getElem_cons hlt, hx]
  · simp [List.length_take, Nat.min_eq_left (Nat.le_of_lt hlt)]

/-- The `=> -> <= <-` pipeline, on a machine whose stack row is decomposed
around the cursor. -/
theorem c8_roundtrip_aux (pc : Nat) (A : List (List String)) (v : String)
    (tail : List String) (B : List (List String)) (labels : List (String × Nat)) :
    (do
      let s1 ← i_copy_right ⟨pc, A.length, A ++ (v :: tail) :: B, labels⟩
      let s3 ← i_copy_left s1.switch_to_right_stack
      s3.switch_to_left_stack) =
      some ⟨pc, A.length,
        if B = [] then (A ++ (v :: tail) :: B) ++ [[]] else A ++ (v :: tail) :: B, labels⟩ := by
  cases B with
  | nil =>
    have p1 := Machine.pop_string_eq_some ⟨pc, A.length, A ++ (v :: tail) :: [], labels⟩
      (getElem?_append_length A (v :: tail) [])
    rw [set_append_length] at p1
    have hsw1 : Machine.switch_to_right_stack ⟨pc, A.length, A ++ tail :: [], labels⟩ =
        ⟨pc, A.length + 1, A ++ tail :: [] :: [], labels⟩ := by
      simp [Machine.switch_to_right_stack]
    have p2 := Machine.push_string_eq_some ⟨pc, A.length + 1, A ++ tail :: [] :: [], labels⟩ v
      (getElem?_append_length_succ A tail [] [])
    rw [set_append_length_succ] at p2
    have hsl1 : Machine.switch_to_left_stack ⟨pc, A.length + 1, A ++ tail :: [v] :: [], labels⟩ =
        some ⟨pc, A.length, A ++ tail :: [v] :: [], labels⟩ := by
      simp [Machine.switch_to_left_stack]
    have e1 : i_copy_right ⟨pc, A.length, A ++ (v :: tail) :: [], labels⟩ =
        some ⟨pc, A.length, A ++ tail :: [v] :: [], labels⟩ := by
      simp only [i_copy_right, p1, Option.bind_eq_bind, Option.some_bind, hsw1, p2, hsl1]
    have hne1 : A.length + 1 ≠ (A ++ tail :: [v] :: []).length := by
      simp only [List.length_append, List.length_cons, List.length_nil]
      omega
    have e2 : Machine.switch_to_right_stack ⟨pc, A.length, A ++ tail :: [v] :: [], labels⟩ =
        ⟨pc, A.length + 1, A ++ tail :: [v] :: [], labels⟩ := by
      simp [Machine.switch_to_right_stack, hne1]
    have p3 := Machine.pop_string_eq_some ⟨pc, A.length + 1, A ++ tail :: (v :: []) :: [], labels⟩
      (getElem?_append_length_succ A tail (v :: []) [])
    rw [set_append_length_succ] at p3
    have hsl2 : Machine.switch_to_left_stack ⟨pc, A.length + 1, A ++ tail :: [] :: [], labels⟩ =
        some ⟨pc, A.length, A ++ tail :: [] :: [], labels⟩ := by
      simp [Machine.switch_to_left_stack]
    have p4 := Machine.push_string_eq_some ⟨pc, A.length, A ++ tail :: [] :: [], labels⟩ v
      (getElem?_append_length A tail ([] :: []))
    rw [set_append_length] at p4
    have hne2 : A.length + 1 ≠ (A ++ (v :: tail) :: [] :: []).length := by
      simp only [List.length_append, List.length_cons, List.length_nil]
      omega
    have hsw2 : Machine.switch_to_right_stack ⟨pc, A.length, A ++ (v :: tail) :: [] :: [], labels⟩ =
        ⟨pc, A.length + 1, A ++ (v :: tail) :: [] :: [], labels⟩ := by
      simp [Machine.switch_to_right_stack, hne2]
    have e3 : i_copy_left ⟨pc, A.length + 1, A ++ tail :: [v] :: [], labels⟩ =
        some ⟨pc, A.length + 1, A ++ (v :: tail) :: [] :: [], labels⟩ := by
      simp only [i_copy_left, p3, Option.bind_eq_bind, Option.some_bind, hsl2, p4, hsw2,
        Option.pure_def]
    have e4 : Machine.switch_to_left_stack ⟨pc, A.length + 1, A ++ (v :: tail) :: [] :: [], labels⟩ =
        some ⟨pc, A.length, A ++ (v :: tail) :: [] :: [], labels⟩ := by
      simp [Machine.switch_to_left_stack]
    simp only [e1, Option.bind_eq_bind, Option.some_bind, e2, e3, e4]
    simp
  | cons b B' =>
    have p1 := Machine.pop_string_eq_some ⟨pc, A.length, A ++ (v :: tail) :: b :: B', labels⟩
      (getElem?_append_length A (v :: tail) (b :: B'))
    rw [set_append_length] at p1
    have hne1 : A.length + 1 ≠ (A ++ tail :: b :: B').length := by
      simp only [List.length_append, List.length_cons]
      omega
    have hsw1 : Machine.switch_to_right_stack ⟨pc, A.length, A ++ tail :: b :: B', labels⟩ =
        ⟨pc, A.length + 1, A ++ tail :: b :: B', labels⟩ := by
      simp [Machine.switch_to_right_stack, hne1]
    have p2 := Machine.push_string_eq_some ⟨pc, A.length + 1, A ++ tail :: b :: B', labels⟩ v
      (getElem?_append_length_succ A tail b B')
    rw [set_append_length_succ] at p2
    have hsl1 : Machine.switch_to_left_stack ⟨pc, A.length + 1, A ++ tail :: (v :: b) :: B', labels⟩ =
        some ⟨pc, A.length, A ++ tail :: (v :: b) :: B', labels⟩ := by
      simp [Machine.switch_to_left_stack]
    have e1 : i_copy_right ⟨pc, A.length, A ++ (v :: tail) :: b :: B', labels⟩ =
        some ⟨pc, A.length, A ++ tail :: (v :: b) :: B', labels⟩ := by
      simp only [i_copy_right, p1, Option.bind_eq_bind, Option.some_bind, hsw1, p2, hsl1]
    have hne2 : A.length + 1 ≠ (A ++ tail :: (v :: b) :: B').length := by
      simp only [List.length_append, List.length_cons]
      omega
    have e2 : Machine.switch_to_right_stack ⟨pc, A.length, A ++ tail :: (v :: b) :: B', labels⟩ =
        ⟨pc, A.length + 1, A ++ tail :: (v :: b) :: B', labels⟩ := by
      simp [Machine.switch_to_right_stack, hne2]
    have p3 := Machine.pop_string_eq_some ⟨pc, A.length + 1, A ++ tail :: (v :: b) :: B', labels⟩
      (getElem?_append_length_succ A tail (v :: b) B')
    rw [set_append_length_succ] at p3
    have hsl2 : Machine.switch_to_left_stack ⟨pc, A.length + 1, A ++ tail :: b :: B', labels⟩ =
        some ⟨pc, A.length, A ++ tail :: b :: B', labels⟩ := by
      simp [Machine.switch_to_left_stack]
    have p4 := Machine.push_string_eq_some ⟨pc, A.length, A ++ tail :: b :: B', labels⟩ v
      (getElem?_append_length A tail (b :: B'))
    rw [set_append_length] at p4
    have hne3 : A.length + 1 ≠ (A ++ (v :: tail) :: b :: B').length := by
      simp only [List.length_append, List.length_cons]
      omega
    have hsw2 : Machine.switch_to_right_stack ⟨pc, A.length, A ++ (v :: tail) :: b :: B', labels⟩ =
        ⟨pc, A.length + 1, A ++ (v :: tail) :: b :: B', labels⟩ := by
      simp [Machine.switch_to_right_stack, hne3]
    have e3 : i_copy_left ⟨pc, A.length + 1, A ++ tail :: (v :: b) :: B', labels⟩ =
        some ⟨pc, A.length + 1, A ++ (v :: tail) :: b :: B', labels⟩ := by
      simp only [i_copy_left, p3, Option.bind_eq_bind, Option.some_bind, hsl2, p4, hsw2,
        Option.pure_def]
    have e4 : Machine.switch_to_left_stack ⟨pc, A.length + 1, A ++ (v :: tail) :: b :: B', labels⟩ =
        some ⟨pc, A.length, A ++ (v :: tail) :: b :: B', labels⟩ := by
      simp [Machine.switch_to_left_stack]
    simp only [e1, Option.bind_eq_bind, Option.some_bind, e2, e3, e4]
    simp

/-- C8 amended: `=>` immediately followed by `<=` is *not* a round trip
(both pop from the origin stack; see the counterexample).  The round trip
that is a no-op on stack contents is `=>` then `->` then `<=` then `<-`:
for any machine whose current stack is non-empty it restores every stack's
contents and the cursor, except that a new empty stack remains appended
when the origin was the rightmost stack (the stack the trip created). -/
theorem c8_amended_roundtrip_with_navigation :
    ∀ (s : Machine) (v : String) (tail : List String),
      s.stacks'[s.current_stack]? = some (v :: tail) →
      (do
        let s1 ← i_copy_right s
        let s3 ← i_copy_left s1.switch_to_right_stack
        s3.switch_to_left_stack) =
        some { s with stacks' := if s.current_stack + 1 = s.stacks'.length then s.stacks' ++ [[]] else s.stacks' } := by
  intro s v tail h
  obtain ⟨A, B, hdec, hcur⟩ := exists_decomp h
  cases s with
  | mk pc0 cur0 st0 lab0 =>
    dsimp only at hdec hcur ⊢
    subst hdec
    subst hcur
    rw [c8_roundtrip_aux pc0 A v tail B lab0]
    have hlen : (A ++ (v :: tail) :: B).length = A.length + 1 + B.length := by
      simp [List.length_append, List.length_cons]
      omega
    by_cases hb : B = []
    · subst hb
      simp [hlen]
    · have hne : ¬ (A.length + 1 = (A ++ (v :: tail) :: B).length) := by
        rw [hlen]
        have : B.length ≠ 0 := fun hz => hb (List.length_eq_zero.mp hz)
        omega
      rw [if_neg hb, if_neg hne]

/-- C8 amended witness: the four-instruction round trip applied to a
machine with `"v"` on its only (rightmost) stack: contents are restored
and one new empty stack remains. -/
theorem c8_amended_witness :
    (do
      let s1 ← i_copy_right { pc := 0, current_stack := 0, stacks' := [["v"]], labels := [] }
      let s3 ← i_copy_left s1.switch_to_right_stack
      s3.switch_to_left_stack) =
      some { pc := 0, current_stack := 0, stacks' := [["v"], []], labels := [] } := by
  have := c8_amended_roundtrip_with_navigation
    { pc := 0, current_stack := 0, stacks' := [["v"]], labels := [] } "v" [] (by decide)
  simpa using this

/-! ## Claim C9: the cursor invariant -/

theorem Machine.pop_string_shape {s : Machine} {p : String × Machine}
    (h : s.pop_string = some p) :
    p.2.current_stack = s.current_stack ∧ p.2.stacks'.length = s.stacks'.length := by
  simp only [Machine.pop_string] at h
  split at h
  · cases h
  · cases h
  · cases h
    simp [List.length_set]

theorem Machine.push_string_shape {s : Machine} {v : String} {s' : Machine}
    (h : s.push_string v = some s') :
    s'.current_stack = s.current_stack ∧ s'.stacks'.length = s.stacks'.length := by
  simp only [Machine.push_string] at h
  split at h
  · cases h
  · cases h
    simp [List.length_set]

theorem Machine.pop_int_shape {s : Machine} {p : Int × Machine}
    (h : s.pop_int = some p) :
    p.2.current_stack = s.current_stack ∧ p.2.stacks'.length = s.stacks'.length := by
  simp only [Machine.pop_int, Option.bind_eq_bind, Option.bind_eq_some] at h
  obtain ⟨⟨v, s1⟩, h1, h2⟩ := h
  have hsh := Machine.pop_string_shape h1
  split at h2
  · cases h2
  · cases h2
    exact hsh

theorem Machine.push_int_shape {s : Machine} {v : Int} {s' : Machine}
    (h : s.push_int v = some s') :
    s'.current_stack = s.current_stack ∧ s'.stacks'.length = s.stacks'.length :=
  Machine.push_string_shape h

theorem Machine.switch_left_shape {s s' : Machine}
    (h : s.switch_to_left_stack = some s') :
    s'.current_stack = s.current_stack - 1 ∧ s'.stacks' = s.stacks' := by
  simp only [Machine.switch_to_left_stack] at h
  split at h
  · cases h
  · cases h
    exact ⟨rfl, rfl⟩

theorem Machine.switch_left_inv {s s' : Machine} (hs : s.inv)
    (h : s.switch_to_left_stack = some s') : s'.inv := by
  obtain ⟨hc, hl⟩ := Machine.switch_left_shape h
  unfold Machine.inv at *
  rw [hc, hl]
  omega

theorem Machine.switch_right_inv {s : Machine} (hs : s.inv) :
    s.switch_to_right_stack.inv := by
  unfold Machine.inv at *
  by_cases hc : s.current_stack + 1 = s.stacks'.length
  · simp [Machine.switch_to_right_stack, hc]
  · simp only [Machine.switch_to_right_stack, if_neg hc]
    omega

/-- Invariant preservation for a machine transformer. -/
def PreservesInv (f : Machine → Option Machine) : Prop :=
  ∀ s s', s.inv → f s = some s' → s'.inv

theorem inv_of_shape {s s' : Machine} (hs : s.inv)
    (hc : s'.current_stack = s.current_stack) (hl : s'.stacks'.length = s.stacks'.length) :
    s'.inv := by
  unfold Machine.inv at *
  omega

theorem i_add_inv : PreservesInv i_add := by
  intro s s' hs h
  simp only [i_add, Option.bind_eq_bind, Option.bind_eq_some] at h
  obtain ⟨⟨y, s1⟩, h1, h⟩ := h
  obtain ⟨⟨x, s2⟩, h2, h⟩ := h
  have sh1 := Machine.pop_int_shape h1
  have sh2 := Machine.pop_int_shape h2
  split at h
  · cases h
  · have sh3 := Machine.push_int_shape h
    exact inv_of_shape hs (by rw [sh3.1, sh2.1, sh1.1]) (by rw [sh3.2, sh2.2, sh1.2])

theorem i_sub_inv : PreservesInv i_sub := by
  intro s s' hs h
  simp only [i_sub, Option.bind_eq_bind, Option.bind_eq_some] at h
  obtain ⟨⟨y, s1⟩, h1, h⟩ := h
  obtain ⟨⟨x, s2⟩, h2, h⟩ := h
  have sh1 := Machine.pop_int_shape h1
  have sh2 := Machine.pop_int_shape h2
  split at h
  · cases h
  · have sh3 := Machine.push_int_shape h
    exact inv_of_shape hs (by rw [sh3.1, sh2.1, sh1.1]) (by rw [sh3.2, sh2.2, sh1.2])

theorem i_mul_inv : PreservesInv i_mul := by
  intro s s' hs h
  simp only [i_mul, Option.bind_eq_bind, Option.bind_eq_some] at h
  obtain ⟨⟨y, s1⟩, h1, h⟩ := h
  obtain ⟨⟨x, s2⟩, h2, h⟩ := h
  have sh1 := Machine.pop_int_shape h1
  have sh2 := Machine.pop_int_shape h2
  split at h
  · cases h
  · have sh3 := Machine.push_int_shape h
    exact inv_of_shape hs (by rw [sh3.1, sh2.1, sh1.1]) (by rw [sh3.2, sh2.2, sh1.2])

theorem i_div_inv : PreservesInv i_div := by
  intro s s' hs h
  simp only [i_div, Option.bind_eq_bind, Option.bind_eq_some] at h
  obtain ⟨⟨y, s1⟩, h1, h⟩ := h
  obtain ⟨⟨x, s2⟩, h2, h⟩ := h
  have sh1 := Machine.pop_int_shape h1
  have sh2 := Machine.pop_int_shape h2
  split at h
  · cases h
  · have sh3 := Machine.push_int_shape h
    exact inv_of_shape hs (by rw [sh3.1, sh2.1, sh1.1]) (by rw [sh3.2, sh2.2, sh1.2])

theorem i_mod_inv : PreservesInv i_mod := by
  intro s s' hs h
  simp only [i_mod, Option.bind_eq_bind, Option.bind_eq_some] at h
  obtain ⟨⟨y, s1⟩, h1, h⟩ := h
  obtain ⟨⟨x, s2⟩, h2, h⟩ := h
  have sh1 := Machine.pop_int_shape h1
  have sh2 := Machine.pop_int_shape h2
  split at h
  · cases h
  · have sh3 := Machine.push_int_shape h
    exact inv_of_shape hs (by rw [sh3.1, sh2.1, sh1.1]) (by rw [sh3.2, sh2.2, sh1.2])

theorem i_eq_inv : PreservesInv i_eq := by
  intro s s' hs h
  simp only [i_eq, Option.bind_eq_bind, Option.bind_eq_some] at h
  obtain ⟨⟨y, s1⟩, h1, h⟩ := h
  obtain ⟨⟨x, s2⟩, h2, h⟩ := h
  have sh1 := Machine.pop_string_shape h1
  have sh2 := Machine.pop_string_shape h2
  have sh3 := Machine.push_int_shape h
  exact inv_of_shape hs (by rw [sh3.1, sh2.1, sh1.1]) (by rw [sh3.2, sh2.2, sh1.2])

theorem i_neq_inv : PreservesInv i_neq := by
  intro s s' hs h
  simp only [i_neq, Option.bind_eq_bind, Option.bind_eq_some] at h
  obtain ⟨⟨x, s1⟩, h1, h⟩ := h
  obtain ⟨⟨y, s2⟩, h2, h⟩ := h
  have sh1 := Machine.pop_string_shape h1
  have sh2 := Machine.pop_string_shape h2
  have sh3 := Machine.push_int_shape h
  exact inv_of_shape hs (by rw [sh3.1, sh2.1, sh1.1]) (by rw [sh3.2, sh2.2, sh1.2])

theorem i_concat_inv : PreservesInv i_concat := by
  intro s s' hs h
  simp only [i_concat, Option.bind_eq_bind, Option.bind_eq_some] at h
  obtain ⟨⟨e, s1⟩, h1, h⟩ := h
  obtain ⟨⟨start, s2⟩, h2, h⟩ := h
  have sh1 := Machine.pop_string_shape h1
  have sh2 := Machine.pop_string_shape h2
  have sh3 := Machine.push_string_shape h
  exact inv_of_shape hs (by rw [sh3.1, sh2.1, sh1.1]) (by rw [sh3.2, sh2.2, sh1.2])

theorem i_dup_inv : PreservesInv i_dup := by
  intro s s' hs h
  simp only [i_dup, Option.bind_eq_bind, Option.bind_eq_some] at h
  obtain ⟨⟨v, s1⟩, h1, h⟩ := h
  obtain ⟨s2, h2, h⟩ := h
  have sh1 := Machine.pop_string_shape h1
  have sh2 := Machine.push_string_shape h2
  have sh3 := Machine.push_string_shape h
  exact inv_of_shape hs (by rw [sh3.1, sh2.1, sh1.1]) (by rw [sh3.2, sh2.2, sh1.2])

theorem i_len_inv : PreservesInv i_len := by
  intro s s' hs h
  simp only [i_len, Option.bind_eq_bind, Option.bind_eq_some] at h
  obtain ⟨⟨v, s1⟩, h1, h⟩ := h
  have sh1 := Machine.pop_string_shape h1
  have sh2 := Machine.push_int_shape h
  exact inv_of_shape hs (by rw [sh2.1, sh1.1]) (by rw [sh2.2, sh1.2])

theorem i_chr_inv : PreservesInv i_chr := by
  intro s s' hs h
  simp only [i_chr, Option.bind_eq_bind, Option.bind_eq_some] at h
  obtain ⟨⟨code, s1⟩, h1, h⟩ := h
  have sh1 := Machine.pop_int_shape h1
  split at h
  · have sh2 := Machine.push_string_shape h
    exact inv_of_shape hs (by rw [sh2.1, sh1.1]) (by rw [sh2.2, sh1.2])
  · cases h

theorem i_get_inv : PreservesInv i_get := by
  intro s s' hs h
  simp only [i_get, Option.bind_eq_bind, Option.bind_eq_some] at h
  obtain ⟨⟨index, s1⟩, h1, h⟩ := h
  obtain ⟨⟨string, s2⟩, h2, h⟩ := h
  have sh1 := Machine.pop_int_shape h1
  have sh2 := Machine.pop_string_shape h2
  split at h
  · cases h
  · have sh3 := Machine.push_string_shape h
    exact inv_of_shape hs (by rw [sh3.1, sh2.1, sh1.1]) (by rw [sh3.2, sh2.2, sh1.2])

theorem i_empty_inv : PreservesInv i_empty := by
  intro s s' hs h
  simp only [i_empty] at h
  split at h
  · cases h
  · have sh := Machine.push_int_shape h
    exact inv_of_shape hs sh.1 sh.2

theorem i_input_inv (inp : String) : PreservesInv (i_input inp) := by
  intro s s' hs h
  have sh := Machine.push_string_shape h
  exact inv_of_shape hs sh.1 sh.2

theorem i_pop_inv : PreservesInv i_pop := by
  intro s s' hs h
  simp only [i_pop, Option.bind_eq_bind, Option.bind_eq_some] at h
  obtain ⟨⟨v, s1⟩, h1, h⟩ := h
  cases h
  have sh := Machine.pop_string_shape h1
  exact inv_of_shape hs sh.1 sh.2

theorem i_print_inv : PreservesInv i_print := by
  intro s s' hs h
  simp only [i_print, Option.bind_eq_bind, Option.bind_eq_some] at h
  obtain ⟨⟨v, s1⟩, h1, h⟩ := h
  cases h
  have sh := Machine.pop_string_shape h1
  exact inv_of_shape hs sh.1 sh.2

theorem i_save_pc_inv : PreservesInv i_save_pc := by
  intro s s' hs h
  have sh := Machine.push_int_shape h
  exact inv_of_shape hs sh.1 sh.2

theorem i_jump_inv : PreservesInv i_jump := by
  intro s s' hs h
  simp only [i_jump, Option.bind_eq_bind, Option.bind_eq_some] at h
  obtain ⟨⟨pc, s1⟩, h1, h⟩ := h
  cases h
  have sh := Machine.pop_int_shape h1
  exact inv_of_shape hs sh.1 sh.2

theorem i_jump_if_inv : PreservesInv i_jump_if := by
  intro s s' hs h
  simp only [i_jump_if, Option.bind_eq_bind, Option.bind_eq_some] at h
  obtain ⟨⟨pc, s1⟩, h1, h⟩ := h
  obtain ⟨⟨condition, s2⟩, h2, h⟩ := h
  have sh1 := Machine.pop_int_shape h1
  have sh2 := Machine.pop_int_shape h2
  split at h <;> cases h <;>
    exact inv_of_shape hs (by rw [sh2.1, sh1.1]) (by rw [sh2.2, sh1.2])

theorem i_goto_if_inv : PreservesInv i_goto_if := by
  intro s s' hs h
  simp only [i_goto_if, Option.bind_eq_bind, Option.bind_eq_some] at h
  obtain ⟨⟨label, s1⟩, h1, h⟩ := h
  obtain ⟨⟨condition, s2⟩, h2, h⟩ := h
  have sh1 := Machine.pop_string_shape h1
  have sh2 := Machine.pop_int_shape h2
  split at h
  · split at h
    · cases h
      exact inv_of_shape hs (by rw [sh2.1, sh1.1]) (by rw [sh2.2, sh1.2])
    · cases h
  · cases h
    exact inv_of_shape hs (by rw [sh2.1, sh1.1]) (by rw [sh2.2, sh1.2])

theorem i_copy_left_inv : PreservesInv i_copy_left := by
  intro s s' hs h
  simp only [i_copy_left, Option.bind_eq_bind, Option.bind_eq_some, Option.pure_def,
    Option.some.injEq] at h
  obtain ⟨⟨v, s1⟩, h1, h⟩ := h
  obtain ⟨s2, h2, h⟩ := h
  obtain ⟨s3, h3, h⟩ := h
  have sh1 := Machine.pop_string_shape h1
  have hinv1 : s1.inv := inv_of_shape hs sh1.1 sh1.2
  have hinv2 : s2.inv := Machine.switch_left_inv hinv1 h2
  have sh3 := Machine.push_string_shape h3
  have hinv3 : s3.inv := inv_of_shape hinv2 sh3.1 sh3.2
  rw [← h]
  exact Machine.switch_right_inv hinv3

theorem i_copy_right_inv : PreservesInv i_copy_right := by
  intro s s' hs h
  simp only [i_copy_right, Option.bind_eq_bind, Option.bind_eq_some] at h
  obtain ⟨⟨v, s1⟩, h1, h⟩ := h
  obtain ⟨s3, h3, h⟩ := h
  have sh1 := Machine.pop_string_shape h1
  have hinv1 : s1.inv := inv_of_shape hs sh1.1 sh1.2
  have hinv2 : s1.switch_to_right_stack.inv := Machine.switch_right_inv hinv1
  have sh3 := Machine.push_string_shape h3
  have hinv3 : s3.inv := inv_of_shape hinv2 sh3.1 sh3.2
  exact Machine.switch_left_inv hinv3 h

set_option maxHeartbeats 2000000 in
theorem execToken_inv (inp : String) (t : Token) :
    ∀ s s', s.inv → execToken inp s t = some s' → s'.inv := by
  intro s s' hs h
  unfold execToken at h
  split at h
  · cases h; exact hs
  · cases h; exact hs
  · exact i_save_pc_inv s s' hs h
  · have sh := Machine.push_int_shape h
    exact inv_of_shape hs sh.1 sh.2
  · have sh := Machine.push_string_shape h
    exact inv_of_shape hs sh.1 sh.2
  · -- the identifier dispatch chain
    rename_i instr
    by_cases hc1 : instr = "+"
    · rw [if_pos hc1] at h; exact i_add_inv s s' hs h
    rw [if_neg hc1] at h
    by_cases hc2 : instr = "-"
    · rw [if_pos hc2] at h; exact i_sub_inv s s' hs h
    rw [if_neg hc2] at h
    by_cases hc3 : instr = "*"
    · rw [if_pos hc3] at h; exact i_mul_inv s s' hs h
    rw [if_neg hc3] at h
    by_cases hc4 : instr = "/"
    · rw [if_pos hc4] at h; exact i_div_inv s s' hs h
    rw [if_neg hc4] at h
    by_cases hc5 : instr = "%"
    · rw [if_pos hc5] at h; exact i_mod_inv s s' hs h
    rw [if_neg hc5] at h
    by_cases hc6 : instr = "=="
    · rw [if_pos hc6] at h; exact i_eq_inv s s' hs h
    rw [if_neg hc6] at h
    by_cases hc7 : instr = "!="
    · rw [if_pos hc7] at h; exact i_neq_inv s s' hs h
    rw [if_neg hc7] at h
    by_cases hc8 : instr = "=>"
    · rw [if_pos hc8] at h; exact i_copy_right_inv s s' hs h
    rw [if_neg hc8] at h
    by_cases hc9 : instr = "<="
    · rw [if_pos hc9] at h; exact i_copy_left_inv s s' hs h
    rw [if_neg hc9] at h
    by_cases hc10 : instr = "."
    · rw [if_pos hc10] at h; exact i_get_inv s s' hs h
    rw [if_neg hc10] at h
    by_cases hc11 : instr = "->"
    · rw [if_pos hc11] at h; cases h; exact Machine.switch_right_inv hs
    rw [if_neg hc11] at h
    by_cases hc12 : instr = "<-"
    · rw [if_pos hc12] at h; exact Machine.switch_left_inv hs h
    rw [if_neg hc12] at h
    by_cases hc13 : instr = "chr"
    · rw [if_pos hc13] at h; exact i_chr_inv s s' hs h
    rw [if_neg hc13] at h
    by_cases hc14 : instr = "concat"
    · rw [if_pos hc14] at h; exact i_concat_inv s s' hs h
    rw [if_neg hc14] at h
    by_cases hc15 : instr = "debug"
    · rw [if_pos hc15] at h; cases h; exact hs
    rw [if_neg hc15] at h
    by_cases hc16 : instr = "dup"
    · rw [if_pos hc16] at h; exact i_dup_inv s s' hs h
    rw [if_neg hc16] at h
    by_cases hc17 : instr = "empty"
    · rw [if_pos hc17] at h; exact i_empty_inv s s' hs h
    rw [if_neg hc17] at h
    by_cases hc18 : instr = "input"
    · rw [if_pos hc18] at h; exact i_input_inv inp s s' hs h
    rw [if_neg hc18] at h
    by_cases hc19 : instr = "goto_if"
    · rw [if_pos hc19] at h; exact i_goto_if_inv s s' hs h
    rw [if_neg hc19] at h
    by_cases hc20 : instr = "jump"
    · rw [if_pos hc20] at h; exact i_jump_inv s s' hs h
    rw [if_neg hc20] at h
    by_cases hc21 : instr = "jump_if"
    · rw [if_pos hc21] at h; exact i_jump_if_inv s s' hs h
    rw [if_neg hc21] at h
    by_cases hc22 : instr = "len"
    · rw [if_pos hc22] at h; exact i_len_inv s s' hs h
    rw [if_neg hc22] at h
    by_cases hc23 : instr = "pop"
    · rw [if_pos hc23] at h; exact i_pop_inv s s' hs h
    rw [if_neg hc23] at h
    by_cases hc24 : instr = "print"
    · rw [if_pos hc24] at h; exact i_print_inv s s' hs h
    rw [if_neg hc24] at h
    by_cases hcol : startsWithColon instr = true
    · rw [if_pos hcol] at h; cases h; exact hs
    rw [if_neg hcol] at h
    split at h
    · cases h; exact hs
    · cases h

/-- C9: the cursor invariant.  Every successful execution step preserves
`cursor < row length` (covering every instruction);
`switch_to_right_stack` is total — it always succeeds — and appends a new
empty stack exactly when the incremented cursor moves past the rightmost
stack; and `switch_to_left_stack` fails exactly when the cursor is
already 0. -/
theorem c9_cursor_invariant :
    (∀ (inp : String) (toks : List Token) (s s' : Machine),
        s.inv → execStep inp toks s = some s' → s'.inv) ∧
    (∀ s : Machine,
      (s.current_stack + 1 = s.stacks'.length →
        s.switch_to_right_stack = { s with current_stack := s.current_stack + 1, stacks' := s.stacks' ++ [[]] }) ∧
      (s.current_stack + 1 ≠ s.stacks'.length →
        s.switch_to_right_stack = { s with current_stack := s.current_stack + 1 })) ∧
    (∀ s : Machine, s.switch_to_left_stack = none ↔ s.current_stack = 0) := by
  refine ⟨?_, ?_, ?_⟩
  · intro inp toks s s' hs h
    simp only [execStep] at h
    split at h
    · cases h
    · simp only [Option.map_eq_some'] at h
      obtain ⟨s'', h1, h2⟩ := h
      have := execToken_inv inp _ s s'' hs h1
      rw [← h2]
      exact this
  · intro s
    constructor
    · intro hc
      simp [Machine.switch_to_right_stack, hc]
    · intro hc
      simp [Machine.switch_to_right_stack, hc]
  · intro s
    constructor
    · intro h
      simp only [Machine.switch_to_left_stack] at h
      split at h
      · assumption
      · cases h
    · intro h
      simp [Machine.switch_to_left_stack, h]

/-- C9 witness: one step of `->` from the initial machine (which appends a
new empty stack) applied through the invariant-preservation part. -/
theorem c9_witness :
    Machine.inv { pc := 1, current_stack := 1, stacks' := [[], []], labels := [] } :=
  c9_cursor_invariant.1 "" [Token.Ident "->"]
    { pc := 0, current_stack := 0, stacks' := [[]], labels := [] }
    { pc := 1, current_stack := 1, stacks' := [[], []], labels := [] }
    (by decide) (by decide)

end Kcats
